import Mathlib

/-!
Verification development for the Solana SDK core: the legacy transaction
message model (header, account-key table, compiled instructions, sanitize and
account-role classification) and the program-derived-address (PDA) algorithm,
shallowly embedded from the Rust sources in src/message/src/legacy.rs and
src/pubkey/src/lib.rs.  Machine integers (u8, usize) are modelled as Nat;
usize saturating subtraction is Nat truncated subtraction.
-/

namespace Solana

/-- Pubkey is a 32-byte account address (src/pubkey/src/lib.rs, struct
Pubkey([u8; 32])); bytes are modelled as a list of Nat, each below 256. -/
structure Pubkey where
  bytes : List Nat
deriving DecidableEq, Repr

/-- MessageHeader carries the three u8 counts of the legacy message
(solana-message, MessageHeader). -/
structure MessageHeader where
  num_required_signatures : Nat
  num_readonly_signed_accounts : Nat
  num_readonly_unsigned_accounts : Nat
deriving DecidableEq, Repr

/-- CompiledInstruction references accounts and the program by u8 index into
the message account-key table (crate::compiled_instruction). -/
structure CompiledInstruction where
  program_id_index : Nat
  accounts : List Nat
  data : List Nat
deriving DecidableEq, Repr

/-- Message is the legacy transaction message (src/message/src/legacy.rs,
struct Message).  The recent blockhash is an opaque 32-byte value. -/
structure Message where
  header : MessageHeader
  account_keys : List Pubkey
  recent_blockhash : List Nat
  instructions : List CompiledInstruction
deriving DecidableEq, Repr

/-- SanitizeError kinds of the solana-sanitize crate; Message::sanitize only
ever produces IndexOutOfBounds. -/
inductive SanitizeError where
  | IndexOutOfBounds
  | ValueOutOfBounds
  | InvalidValue
deriving DecidableEq, Repr

/-- Sanitize for Pubkey is the trait default, returning Ok(()) (src/pubkey/src/lib.rs
line 321: impl solana_sanitize::Sanitize for Pubkey with an empty body). -/
def Pubkey.sanitize (_ : Pubkey) : Except SanitizeError Unit := Except.ok ()

/-- Vec sanitize for the account-key table: element-wise Pubkey::sanitize. -/
def sanitizeKeys : List Pubkey → Except SanitizeError Unit
  | [] => Except.ok ()
  | k :: rest =>
    match k.sanitize with
    | Except.ok () => sanitizeKeys rest
    | Except.error e => Except.error e

/-- Modelled from the spec: Hash and CompiledInstruction implement Sanitize
with the trait default (no additional cross-field rule beyond the explicit
sanitize checks, spec section 4.2 step 4), so their sanitize returns Ok(()). -/
def sanitizeRest (_ : List Nat) (_ : List CompiledInstruction) :
    Except SanitizeError Unit := Except.ok ()

/-- The inner account-index loop of Message::sanitize (legacy.rs lines
119-123): each account index of a compiled instruction must be below the
account-key table length. -/
def checkAccountIndexes (len : Nat) : List Nat → Except SanitizeError Unit
  | [] => Except.ok ()
  | a :: rest =>
    if a ≥ len then Except.error SanitizeError.IndexOutOfBounds
    else checkAccountIndexes len rest

/-- The per-instruction loop of Message::sanitize (legacy.rs lines 111-124):
program_id_index in bounds, program_id_index nonzero (a program cannot be the
payer), all account indexes in bounds. -/
def checkInstructions (len : Nat) : List CompiledInstruction → Except SanitizeError Unit
  | [] => Except.ok ()
  | ci :: rest =>
    if ci.program_id_index ≥ len then Except.error SanitizeError.IndexOutOfBounds
    else if ci.program_id_index = 0 then Except.error SanitizeError.IndexOutOfBounds
    else
      match checkAccountIndexes len ci.accounts with
      | Except.ok () => checkInstructions len rest
      | Except.error e => Except.error e

/-- Message::sanitize (src/message/src/legacy.rs lines 96-130), checking in
order: signing area and read-only non-signing area must not overlap, at least
one read-write fee-payer slot, per-instruction index bounds, then the
element-wise sanitize of keys, blockhash and instructions. -/
def Message.sanitize (m : Message) : Except SanitizeError Unit :=
  if m.header.num_required_signatures + m.header.num_readonly_unsigned_accounts >
      m.account_keys.length then
    Except.error SanitizeError.IndexOutOfBounds
  else if m.header.num_readonly_signed_accounts ≥ m.header.num_required_signatures then
    Except.error SanitizeError.IndexOutOfBounds
  else
    match checkInstructions m.account_keys.length m.instructions with
    | Except.error e => Except.error e
    | Except.ok () =>
      match sanitizeKeys m.account_keys with
      | Except.error e => Except.error e
      | Except.ok () => sanitizeRest m.recent_blockhash m.instructions

/-- Message::is_writable_index (legacy.rs lines 514-522).  Nat subtraction is
truncated, exactly mirroring usize::saturating_sub in the source. -/
def Message.is_writable_index (m : Message) (i : Nat) : Bool :=
  decide (i < m.header.num_required_signatures - m.header.num_readonly_signed_accounts) ||
    (decide (i ≥ m.header.num_required_signatures) &&
      decide (i < m.account_keys.length - m.header.num_readonly_unsigned_accounts))

/-- Modelled from the spec: the upgradeable-loader program id is the external
distinguished constant bpf_loader_upgradeable::id() of the solana-sdk-ids
crate (base58 BPFLoaderUpgradeab1e11111111111111111111111), not present under
src/; only its identity as a fixed 32-byte address matters here. -/
def bpf_loader_upgradeable_id : Pubkey :=
  ⟨[2, 168, 246, 145, 78, 136, 161, 176, 226, 16, 21, 62, 247, 99, 174, 43,
    0, 194, 185, 61, 22, 193, 36, 210, 192, 83, 122, 16, 4, 128, 0, 0]⟩

/-- Message::is_upgradeable_loader_present (legacy.rs lines 584-588). -/
def Message.is_upgradeable_loader_present (m : Message) : Bool :=
  m.account_keys.any (fun k => k == bpf_loader_upgradeable_id)

/-- Message::is_instruction_account (legacy.rs lines 477-485): the usize index
is first converted to u8 (failing, hence false, above 255), then looked up in
every instruction's account list. -/
def Message.is_instruction_account (m : Message) (key_index : Nat) : Bool :=
  decide (key_index ≤ 255) &&
    m.instructions.any (fun ix => ix.accounts.contains key_index)

/-- Message::is_key_called_as_program (legacy.rs lines 487-495): the usize
index is first converted to u8 (failing, hence false, above 255), then
compared with every instruction's program_id_index. -/
def Message.is_key_called_as_program (m : Message) (key_index : Nat) : Bool :=
  decide (key_index ≤ 255) &&
    m.instructions.any (fun ix => ix.program_id_index == key_index)

/-- Message::demote_program_id (legacy.rs lines 508-510). -/
def Message.demote_program_id (m : Message) (i : Nat) : Bool :=
  m.is_key_called_as_program i && !m.is_upgradeable_loader_present

/-- Message::is_account_maybe_reserved (legacy.rs lines 542-554): reserved
only when a reserved set is supplied, the index is in range and the key at the
index belongs to the set.  The HashSet is modelled by a list queried for
membership. -/
def Message.is_account_maybe_reserved (m : Message) (key_index : Nat)
    (reserved_account_keys : Option (List Pubkey)) : Bool :=
  match reserved_account_keys with
  | none => false
  | some keys =>
    match m.account_keys[key_index]? with
    | none => false
    | some key => keys.contains key

/-- Message::is_maybe_writable (legacy.rs lines 530-538). -/
def Message.is_maybe_writable (m : Message) (i : Nat)
    (reserved_account_keys : Option (List Pubkey)) : Bool :=
  m.is_writable_index i &&
    !m.is_account_maybe_reserved i reserved_account_keys &&
    !m.demote_program_id i

/-- Message::program_id (legacy.rs lines 458-462).  The source indexes
account_keys directly (a panic when out of range); the lookup is modelled with
an Option so that the in-bounds claim is expressible. -/
def Message.program_id (m : Message) (instruction_index : Nat) : Option Pubkey :=
  m.instructions[instruction_index]?.bind
    (fun ix => m.account_keys[ix.program_id_index]?)

/-- Message::program_index (legacy.rs lines 464-466). -/
def Message.program_index (m : Message) (instruction_index : Nat) : Option Nat :=
  m.instructions[instruction_index]?.map (fun ix => ix.program_id_index)

/-- Message::program_ids (legacy.rs lines 468-473), with the panicking
account-key lookup modelled by Option. -/
def Message.program_ids (m : Message) : List (Option Pubkey) :=
  m.instructions.map (fun ix => m.account_keys[ix.program_id_index]?)

/-- Concrete message used to refute the unrestricted form of the claim about
is_writable_index at index 0: header all zero, a single account key. -/
def zeroHeaderMessage : Message :=
  { header := { num_required_signatures := 0, num_readonly_signed_accounts := 0,
                num_readonly_unsigned_accounts := 0 },
    account_keys := [⟨List.replicate 32 7⟩],
    recent_blockhash := List.replicate 32 0,
    instructions := [] }

theorem checkAccountIndexes_ok_iff (len : Nat) (l : List Nat) :
    checkAccountIndexes len l = Except.ok () ↔ ∀ a ∈ l, a < len := by
  induction l with
  | nil => simp [checkAccountIndexes]
  | cons a rest ih =>
    by_cases h : a ≥ len
    · simp only [checkAccountIndexes, if_pos h]
      constructor
      · intro hc; cases hc
      · intro hall; exact absurd (hall a (by simp)) (by omega)
    · simp only [checkAccountIndexes, if_neg h, ih]
      constructor
      · intro hall b hb
        rcases List.mem_cons.mp hb with rfl | hb
        · omega
        · exact hall b hb
      · intro hall b hb; exact hall b (List.mem_cons_of_mem _ hb)

theorem checkAccountIndexes_cases (len : Nat) (l : List Nat) :
    checkAccountIndexes len l = Except.ok () ∨
      checkAccountIndexes len l = Except.error SanitizeError.IndexOutOfBounds := by
  induction l with
  | nil => left; rfl
  | cons a rest ih =>
    by_cases h : a ≥ len
    · right; simp [checkAccountIndexes, if_pos h]
    · simpa [checkAccountIndexes, if_neg h] using ih

theorem checkInstructions_ok_iff (len : Nat) (l : List CompiledInstruction) :
    checkInstructions len l = Except.ok () ↔
      ∀ ci ∈ l, ci.program_id_index < len ∧ ci.program_id_index ≠ 0 ∧
        ∀ a ∈ ci.accounts, a < len := by
  induction l with
  | nil => simp [checkInstructions]
  | cons ci rest ih =>
    by_cases h1 : ci.program_id_index ≥ len
    · simp only [checkInstructions, if_pos h1]
      constructor
      · intro hc; cases hc
      · intro hall; exact absurd (hall ci (by simp)).1 (by omega)
    · by_cases h2 : ci.program_id_index = 0
      · simp only [checkInstructions, if_neg h1, if_pos h2]
        constructor
        · intro hc; cases hc
        · intro hall; exact absurd h2 (hall ci (by simp)).2.1
      · simp only [checkInstructions, if_neg h1, if_neg h2]
        rcases checkAccountIndexes_cases len ci.accounts with hok | herr
        · rw [hok]
          simp only [ih]
          constructor
          · intro hall b hb
            rcases List.mem_cons.mp hb with rfl | hb
            · exact ⟨by omega, h2, (checkAccountIndexes_ok_iff len b.accounts).mp hok⟩
            · exact hall b hb
          · intro hall b hb; exact hall b (List.mem_cons_of_mem _ hb)
        · rw [herr]
          constructor
          · intro hc; cases hc
          · intro hall
            have := (checkAccountIndexes_ok_iff len ci.accounts).mpr
              (hall ci (by simp)).2.2
            rw [this] at herr; cases herr

theorem checkInstructions_cases (len : Nat) (l : List CompiledInstruction) :
    checkInstructions len l = Except.ok () ∨
      checkInstructions len l = Except.error SanitizeError.IndexOutOfBounds := by
  induction l with
  | nil => left; rfl
  | cons ci rest ih =>
    by_cases h1 : ci.program_id_index ≥ len
    · right; simp [checkInstructions, if_pos h1]
    · by_cases h2 : ci.program_id_index = 0
      · right; simp [checkInstructions, if_neg h1, if_pos h2]
      · rcases checkAccountIndexes_cases len ci.accounts with hok | herr
        · simpa [checkInstructions, if_neg h1, if_neg h2, hok] using ih
        · right; simp [checkInstructions, if_neg h1, if_neg h2, herr]

theorem sanitizeKeys_ok (l : List Pubkey) : sanitizeKeys l = Except.ok () := by
  induction l with
  | nil => rfl
  | cons k rest ih => simpa [sanitizeKeys, Pubkey.sanitize] using ih

/-- C1: Message::sanitize returns Ok(()) exactly when the two header
inequalities hold and every compiled instruction has an in-bounds, nonzero
program_id_index and in-bounds account indexes; every failure carries the
single error kind IndexOutOfBounds.  Sanitize is a pure function of the
message (it takes the message by shared reference and mutates nothing), so
unchangedness and idempotence hold by construction in this embedding. -/
theorem sanitize_ok_iff (m : Message) :
    (m.sanitize = Except.ok () ↔
      (m.header.num_required_signatures + m.header.num_readonly_unsigned_accounts ≤
          m.account_keys.length ∧
        m.header.num_readonly_signed_accounts < m.header.num_required_signatures ∧
        ∀ ci ∈ m.instructions,
          ci.program_id_index < m.account_keys.length ∧
          ci.program_id_index ≠ 0 ∧
          ∀ a ∈ ci.accounts, a < m.account_keys.length)) ∧
    (∀ e, m.sanitize = Except.error e → e = SanitizeError.IndexOutOfBounds) := by
  unfold Message.sanitize
  by_cases ho : m.header.num_required_signatures + m.header.num_readonly_unsigned_accounts >
      m.account_keys.length
  · rw [if_pos ho]
    exact ⟨⟨fun hc => (nomatch hc), fun hall => absurd hall.1 (by omega)⟩,
      fun e he => by cases he; rfl⟩
  · rw [if_neg ho]
    by_cases hs : m.header.num_readonly_signed_accounts ≥ m.header.num_required_signatures
    · rw [if_pos hs]
      exact ⟨⟨fun hc => (nomatch hc), fun hall => absurd hall.2.1 (by omega)⟩,
        fun e he => by cases he; rfl⟩
    · rw [if_neg hs]
      rcases checkInstructions_cases m.account_keys.length m.instructions with hok | herr
      · rw [hok, sanitizeKeys_ok]
        refine ⟨⟨fun _ => ?_, fun _ => rfl⟩, fun e he => by cases he⟩
        exact ⟨by omega, by omega,
          (checkInstructions_ok_iff m.account_keys.length m.instructions).mp hok⟩
      · rw [herr]
        refine ⟨⟨fun hc => (nomatch hc), fun hall => ?_⟩, fun e he => by cases he; rfl⟩
        have := (checkInstructions_ok_iff m.account_keys.length m.instructions).mpr hall.2.2
        rw [this] at herr; cases herr

/-- C2: Message::is_writable_index holds exactly on the writable sub-range of
the signer region or the writable sub-range of the non-signer region, with
both boundary subtractions saturating at zero (Nat truncated subtraction),
for arbitrary header values. -/
theorem is_writable_index_iff (m : Message) (i : Nat) :
    m.is_writable_index i = true ↔
      (i < m.header.num_required_signatures - m.header.num_readonly_signed_accounts ∨
        (m.header.num_required_signatures ≤ i ∧
          i < m.account_keys.length - m.header.num_readonly_unsigned_accounts)) := by
  simp [Message.is_writable_index]

/-- C3 counterexample: the all-zero header satisfies
num_readonly_signed_accounts ≥ num_required_signatures, yet with one account
key and num_readonly_unsigned_accounts = 0 the index 0 is writable, refuting
the claim that is_writable_index(0) is false regardless of the table and of
num_readonly_unsigned_accounts. -/
theorem is_writable_index_zero_cex :
    zeroHeaderMessage.header.num_required_signatures ≤
        zeroHeaderMessage.header.num_readonly_signed_accounts ∧
      zeroHeaderMessage.is_writable_index 0 = true := by decide

/-- C3 amended: whenever the header has at least one required signature and
num_readonly_signed_accounts ≥ num_required_signatures, is_writable_index(0)
is false, regardless of the account-key table and of
num_readonly_unsigned_accounts. -/
theorem is_writable_index_zero_false (m : Message)
    (h1 : 1 ≤ m.header.num_required_signatures)
    (h2 : m.header.num_required_signatures ≤ m.header.num_readonly_signed_accounts) :
    m.is_writable_index 0 = false := by
  simp only [Message.is_writable_index, Bool.or_eq_false_iff, Bool.and_eq_false_iff,
    decide_eq_false_iff_not, not_lt, ge_iff_le]
  omega

/-- Concrete message with header (1, 2, 0) exercising the saturating branch of
is_writable_index. -/
def saturatingHeaderMessage : Message :=
  { header := { num_required_signatures := 1, num_readonly_signed_accounts := 2,
                num_readonly_unsigned_accounts := 0 },
    account_keys := [⟨List.replicate 32 7⟩],
    recent_blockhash := List.replicate 32 0,
    instructions := [] }

/-- C3 witness: the amended statement applied at the concrete header (1,2,0). -/
theorem is_writable_index_zero_false_witness :
    saturatingHeaderMessage.is_writable_index 0 = false :=
  is_writable_index_zero_false saturatingHeaderMessage (by decide) (by decide)

theorem is_key_called_as_program_iff (m : Message) (i : Nat)
    (h256 : ∀ ix ∈ m.instructions, ix.program_id_index < 256) :
    m.is_key_called_as_program i = true ↔
      ∃ ix ∈ m.instructions, ix.program_id_index = i := by
  simp only [Message.is_key_called_as_program, Bool.and_eq_true, decide_eq_true_eq,
    List.any_eq_true, beq_iff_eq]
  constructor
  · intro h; exact h.2
  · intro h
    rcases h with ⟨ix, hmem, hpi⟩
    exact ⟨by have := h256 ix hmem; omega, ix, hmem, hpi⟩

theorem is_upgradeable_loader_present_iff (m : Message) :
    m.is_upgradeable_loader_present = true ↔
      ∃ k ∈ m.account_keys, k = bpf_loader_upgradeable_id := by
  simp [Message.is_upgradeable_loader_present]

theorem is_account_maybe_reserved_false_iff (m : Message) (i : Nat)
    (r : Option (List Pubkey)) :
    m.is_account_maybe_reserved i r = false ↔
      ∀ keys, r = some keys → ∀ k, m.account_keys[i]? = some k → k ∉ keys := by
  cases r with
  | none =>
    constructor
    · intro _ keys hks; cases hks
    · intro _; rfl
  | some keys =>
    cases hk : m.account_keys[i]? with
    | none =>
      constructor
      · intro _ ks hks k hsome
        cases hsome
      · intro _
        simp [Message.is_account_maybe_reserved, hk]
    | some key =>
      constructor
      · intro h ks hks k hsome
        cases hks
        cases hsome
        simp only [Message.is_account_maybe_reserved, hk] at h
        simpa using h
      · intro h
        have hnot := h keys rfl key rfl
        simp only [Message.is_account_maybe_reserved, hk]
        simpa using hnot

/-- C6: demote_program_id(i) holds exactly when some instruction names index i
as its program_id_index and no account key equals the upgradeeable loader's
program id; is_maybe_writable(i, r) holds exactly when is_writable_index(i)
holds, the key at i (when present) is not a member of the supplied reserved
set, and demote_program_id(i) is false.  The hypothesis records that every
program_id_index fits in a u8, which the Rust types guarantee. -/
theorem demote_and_maybe_writable_iff (m : Message) (i : Nat)
    (r : Option (List Pubkey))
    (h256 : ∀ ix ∈ m.instructions, ix.program_id_index < 256) :
    (m.demote_program_id i = true ↔
      ((∃ ix ∈ m.instructions, ix.program_id_index = i) ∧
        ∀ k ∈ m.account_keys, k ≠ bpf_loader_upgradeable_id)) ∧
    (m.is_maybe_writable i r = true ↔
      (m.is_writable_index i = true ∧
        (∀ keys, r = some keys → ∀ k, m.account_keys[i]? = some k → k ∉ keys) ∧
        m.demote_program_id i = false)) := by
  constructor
  · rw [Message.demote_program_id, Bool.and_eq_true, Bool.not_eq_true',
      is_key_called_as_program_iff m i h256]
    rw [Bool.eq_false_iff, Ne, is_upgradeable_loader_present_iff]
    constructor
    · intro ⟨h1, h2⟩
      exact ⟨h1, fun k hk hke => h2 ⟨k, hk, hke⟩⟩
    · intro ⟨h1, h2⟩
      exact ⟨h1, fun ⟨k, hk, hke⟩ => h2 k hk hke⟩
  · rw [Message.is_maybe_writable, Bool.and_eq_true, Bool.and_eq_true,
      Bool.not_eq_true', Bool.not_eq_true', is_account_maybe_reserved_false_iff]
    constructor
    · intro ⟨⟨hw, hres⟩, hd⟩; exact ⟨hw, hres, hd⟩
    · intro ⟨hw, hres, hd⟩; exact ⟨⟨hw, hres⟩, hd⟩

/-- Concrete well-formed message: header (1,0,1), two keys, one instruction
calling the second key as program on the first account. -/
def sampleMessage : Message :=
  { header := { num_required_signatures := 1, num_readonly_signed_accounts := 0,
                num_readonly_unsigned_accounts := 1 },
    account_keys := [⟨List.replicate 32 5⟩, ⟨List.replicate 32 6⟩],
    recent_blockhash := List.replicate 32 0,
    instructions := [{ program_id_index := 1, accounts := [0], data := [] }] }

/-- C6 witness: the characterization applied at the concrete sampleMessage,
index 1, no reserved set. -/
theorem demote_and_maybe_writable_iff_witness :
    (∃ ix ∈ sampleMessage.instructions, ix.program_id_index = 1) ∧
      ∀ k ∈ sampleMessage.account_keys, k ≠ bpf_loader_upgradeable_id :=
  ((demote_and_maybe_writable_iff sampleMessage 1 none (by decide)).1).mp (by decide)

/-- C1 witness: the well-formed sampleMessage sanitizes to Ok, so the
characterization yields its three structural conditions there. -/
theorem sanitize_ok_iff_witness :
    sampleMessage.header.num_required_signatures +
        sampleMessage.header.num_readonly_unsigned_accounts ≤
      sampleMessage.account_keys.length ∧
    sampleMessage.header.num_readonly_signed_accounts <
      sampleMessage.header.num_required_signatures ∧
    ∀ ci ∈ sampleMessage.instructions,
      ci.program_id_index < sampleMessage.account_keys.length ∧
      ci.program_id_index ≠ 0 ∧
      ∀ a ∈ ci.accounts, a < sampleMessage.account_keys.length :=
  (sanitize_ok_iff sampleMessage).1.mp (by rfl)

theorem sanitize_ok_checkInstructions (m : Message)
    (hs : m.sanitize = Except.ok ()) :
    checkInstructions m.account_keys.length m.instructions = Except.ok () := by
  unfold Message.sanitize at hs
  split at hs
  · cases hs
  · split at hs
    · cases hs
    · rcases checkInstructions_cases m.account_keys.length m.instructions with hok | herr
      · exact hok
      · rw [herr] at hs; cases hs

/-- C8: on a sanitized message every program-id lookup is in bounds: for every
instruction position below the instruction count, program_id returns a key,
program_index returns an index below the account-key table length, and every
entry of program_ids resolves. -/
theorem sanitized_program_queries_total (m : Message)
    (hs : m.sanitize = Except.ok ()) :
    (∀ j, j < m.instructions.length →
      (m.program_id j).isSome = true ∧
      ∃ ix, m.program_index j = some ix ∧ ix < m.account_keys.length) ∧
    (∀ o ∈ m.program_ids, o.isSome = true) := by
  have hck := sanitize_ok_checkInstructions m hs
  have hall := (checkInstructions_ok_iff m.account_keys.length m.instructions).mp hck
  constructor
  · intro j hj
    have hci : m.instructions[j]? = some m.instructions[j] :=
      List.getElem?_eq_getElem hj
    have hmem : m.instructions[j] ∈ m.instructions := List.getElem_mem hj
    have hlt : m.instructions[j].program_id_index < m.account_keys.length :=
      (hall _ hmem).1
    constructor
    · simp [Message.program_id, hci, List.getElem?_eq_getElem hlt]
    · exact ⟨m.instructions[j].program_id_index,
        by simp [Message.program_index, hci], hlt⟩
  · intro o ho
    rcases List.mem_map.mp ho with ⟨ci, hmem, rfl⟩
    have hlt : ci.program_id_index < m.account_keys.length := (hall ci hmem).1
    simp [List.getElem?_eq_getElem hlt]

/-- C8 witness: the totality statement applied at the concrete well-formed
sampleMessage, whose sanitize evaluates to Ok. -/
theorem sanitized_program_queries_total_witness :
    ((sampleMessage.program_id 0).isSome = true ∧
      ∃ ix, sampleMessage.program_index 0 = some ix ∧
        ix < sampleMessage.account_keys.length) ∧
    (∀ o ∈ sampleMessage.program_ids, o.isSome = true) :=
  ⟨(sanitized_program_queries_total sampleMessage (by rfl)).1 0 (by decide),
    (sanitized_program_queries_total sampleMessage (by rfl)).2⟩

/-- C10: for every index above 255, is_instruction_account and
is_key_called_as_program both return false (the index cannot convert to u8),
and no error is raised: both queries are total Bool functions. -/
theorem oversized_index_queries_false (m : Message) (k : Nat) (hk : 255 < k) :
    m.is_instruction_account k = false ∧ m.is_key_called_as_program k = false := by
  have : ¬ k ≤ 255 := by omega
  simp [Message.is_instruction_account, Message.is_key_called_as_program, this]

/-- C10 witness: applied at the concrete sampleMessage and index 256. -/
theorem oversized_index_queries_false_witness :
    sampleMessage.is_instruction_account 256 = false ∧
      sampleMessage.is_key_called_as_program 256 = false :=
  oversized_index_queries_false sampleMessage 256 (by decide)

/-! Program-derived addresses (src/pubkey/src/lib.rs).  The sha256 hash
(solana-sha256-hasher crate) and the ed25519 decompression test inside
bytes_are_curve_point (curve25519-dalek crate) are external to this
repository; they are abstracted as a backend record, and every property of
the PDA logic is proved for an arbitrary backend. -/

/-- PubkeyError kinds (src/pubkey/src/lib.rs lines 60-65). -/
inductive PubkeyError where
  | MaxSeedLengthExceeded
  | InvalidSeeds
  | IllegalOwner
deriving DecidableEq, Repr

/-- Maximum number of seeds (src/pubkey/src/lib.rs line 43). -/
def MAX_SEEDS : Nat := 16

/-- Maximum length of a derived Pubkey seed (src/pubkey/src/lib.rs line 41). -/
def MAX_SEED_LEN : Nat := 32

/-- PDA_MARKER, the 21-byte ASCII literal ProgramDerivedAddress
(src/pubkey/src/lib.rs line 48). -/
def PDA_MARKER : List Nat :=
  [80, 114, 111, 103, 114, 97, 109, 68, 101, 114, 105, 118, 101, 100, 65,
   100, 100, 114, 101, 115, 115]

/-- HashBackend abstracts the two external primitives the PDA algorithm
consumes: the sha256 digest over a byte stream and the test whether 32 bytes
decompress to an ed25519 curve point. -/
structure HashBackend where
  sha256 : List Nat → List Nat
  isCurvePoint : List Nat → Bool

/-- The byte stream hashed by create_program_address (lib.rs lines 909-914):
the seeds are hashed sequentially, then the program id and PDA_MARKER. -/
def createHashInput (seeds : List (List Nat)) (program_id : Pubkey) : List Nat :=
  seeds.flatten ++ program_id.bytes ++ PDA_MARKER

/-- Pubkey::is_on_curve (lib.rs lines 955-957), delegating to
bytes_are_curve_point. -/
def Pubkey.is_on_curve (B : HashBackend) (p : Pubkey) : Bool :=
  B.isCurvePoint p.bytes

/-- Pubkey::create_program_address (src/pubkey/src/lib.rs lines 892-921,
non-syscall path): reject more than MAX_SEEDS seeds, reject any seed longer
than MAX_SEED_LEN, hash the seeds with the program id and PDA_MARKER, reject
hashes that decode to a curve point, otherwise return the hash bytes. -/
def Pubkey.create_program_address (B : HashBackend) (seeds : List (List Nat))
    (program_id : Pubkey) : Except PubkeyError Pubkey :=
  if seeds.length > MAX_SEEDS then
    Except.error PubkeyError.MaxSeedLengthExceeded
  else if seeds.any (fun seed => seed.length > MAX_SEED_LEN) then
    Except.error PubkeyError.MaxSeedLengthExceeded
  else
    let hash := B.sha256 (createHashInput seeds program_id)
    if B.isCurvePoint hash then Except.error PubkeyError.InvalidSeeds
    else Except.ok ⟨hash⟩

/-- The bump loop of Pubkey::try_find_program_address (lib.rs lines 808-823):
bump_seed starts at u8::MAX and the loop body runs u8::MAX times, decrementing
the bump after each failed attempt; Ok returns, InvalidSeeds continues, any
other error aborts.  The fuel counter equals the current bump at every call
from the entry point. -/
def try_find_loop (B : HashBackend) (seeds : List (List Nat)) (program_id : Pubkey) :
    Nat → Nat → Option (Pubkey × Nat)
  | 0, _ => none
  | fuel + 1, bump =>
    match Pubkey.create_program_address B (seeds ++ [[bump]]) program_id with
    | Except.ok address => some (address, bump)
    | Except.error PubkeyError.InvalidSeeds =>
      try_find_loop B seeds program_id fuel (bump - 1)
    | Except.error _ => none

/-- Pubkey::try_find_program_address (lib.rs lines 804-823, non-syscall
path). -/
def Pubkey.try_find_program_address (B : HashBackend) (seeds : List (List Nat))
    (program_id : Pubkey) : Option (Pubkey × Nat) :=
  try_find_loop B seeds program_id 255 255

theorem create_ok_not_curve (B : HashBackend) (seeds : List (List Nat))
    (pid : Pubkey) (addr : Pubkey)
    (h : Pubkey.create_program_address B seeds pid = Except.ok addr) :
    B.isCurvePoint addr.bytes = false := by
  unfold Pubkey.create_program_address at h
  split at h
  · cases h
  · split at h
    · cases h
    · dsimp only at h
      split at h
      · cases h
      · cases h
        simp_all

theorem try_find_loop_some_inv (B : HashBackend) (seeds : List (List Nat))
    (pid : Pubkey) :
    ∀ (k : Nat) (addr : Pubkey) (bump : Nat),
      try_find_loop B seeds pid k k = some (addr, bump) →
      1 ≤ bump ∧ bump ≤ k ∧
      Pubkey.create_program_address B (seeds ++ [[bump]]) pid = Except.ok addr ∧
      ∀ j, bump < j → j ≤ k →
        Pubkey.create_program_address B (seeds ++ [[j]]) pid =
          Except.error PubkeyError.InvalidSeeds := by
  intro k
  induction k with
  | zero => intro addr bump h; cases h
  | succ n ih =>
    intro addr bump h
    rw [try_find_loop] at h
    cases hc : Pubkey.create_program_address B (seeds ++ [[n + 1]]) pid with
    | ok a =>
      rw [hc] at h
      cases h
      exact ⟨by omega, by omega, hc, fun j hj1 hj2 => by omega⟩
    | error e =>
      cases e with
      | InvalidSeeds =>
        rw [hc] at h
        have h2 : try_find_loop B seeds pid n n = some (addr, bump) := by
          simpa using h
        obtain ⟨hb1, hb2, hok, hinv⟩ := ih addr bump h2
        refine ⟨hb1, by omega, hok, fun j hj1 hj2 => ?_⟩
        rcases Nat.lt_or_ge j (n + 1) with hlt | hge
        · exact hinv j hj1 (by omega)
        · have : j = n + 1 := by omega
          subst this
          exact hc
      | MaxSeedLengthExceeded => rw [hc] at h; cases h
      | IllegalOwner => rw [hc] at h; cases h

theorem try_find_loop_none_inv (B : HashBackend) (seeds : List (List Nat))
    (pid : Pubkey) :
    ∀ (k : Nat),
      try_find_loop B seeds pid k k = none →
      (∀ j, 1 ≤ j → j ≤ k →
        Pubkey.create_program_address B (seeds ++ [[j]]) pid =
          Except.error PubkeyError.InvalidSeeds) ∨
      (∃ b e, 1 ≤ b ∧ b ≤ k ∧ e ≠ PubkeyError.InvalidSeeds ∧
        Pubkey.create_program_address B (seeds ++ [[b]]) pid = Except.error e ∧
        ∀ j, b < j → j ≤ k →
          Pubkey.create_program_address B (seeds ++ [[j]]) pid =
            Except.error PubkeyError.InvalidSeeds) := by
  intro k
  induction k with
  | zero => intro _; left; intro j hj1 hj2; omega
  | succ n ih =>
    intro h
    rw [try_find_loop] at h
    cases hc : Pubkey.create_program_address B (seeds ++ [[n + 1]]) pid with
    | ok a => rw [hc] at h; cases h
    | error e =>
      cases e with
      | InvalidSeeds =>
        rw [hc] at h
        have h2 : try_find_loop B seeds pid n n = none := by simpa using h
        rcases ih h2 with hall | ⟨b, e, hb1, hb2, hne, herr, hinv⟩
        · left
          intro j hj1 hj2
          rcases Nat.lt_or_ge j (n + 1) with hlt | hge
          · exact hall j hj1 (by omega)
          · have : j = n + 1 := by omega
            subst this; exact hc
        · right
          refine ⟨b, e, hb1, by omega, hne, herr, fun j hj1 hj2 => ?_⟩
          rcases Nat.lt_or_ge j (n + 1) with hlt | hge
          · exact hinv j hj1 (by omega)
          · have : j = n + 1 := by omega
            subst this; exact hc
      | MaxSeedLengthExceeded =>
        right
        exact ⟨n + 1, PubkeyError.MaxSeedLengthExceeded, by omega, by omega,
          (by intro hx; cases hx), hc, fun j hj1 hj2 => by omega⟩
      | IllegalOwner =>
        right
        exact ⟨n + 1, PubkeyError.IllegalOwner, by omega, by omega,
          (by intro hx; cases hx), hc, fun j hj1 hj2 => by omega⟩

/-- C4: whenever try_find_program_address (hence find_program_address, which
merely unwraps it) returns (addr, bump) for a seed list of at most 16 seeds of
at most 32 bytes each, create_program_address on seeds ++ [[bump]] returns Ok
of the same address, and that address is not on the curve.  Proved for every
hash backend. -/
theorem find_program_address_verifies (B : HashBackend) (seeds : List (List Nat))
    (pid : Pubkey) (addr : Pubkey) (bump : Nat)
    (_hseeds : seeds.length ≤ 16) (_hlen : ∀ s ∈ seeds, s.length ≤ 32)
    (hfound : Pubkey.try_find_program_address B seeds pid = some (addr, bump)) :
    Pubkey.create_program_address B (seeds ++ [[bump]]) pid = Except.ok addr ∧
      Pubkey.is_on_curve B addr = false := by
  obtain ⟨_, _, hok, _⟩ := try_find_loop_some_inv B seeds pid 255 addr bump hfound
  exact ⟨hok, create_ok_not_curve B (seeds ++ [[bump]]) pid addr hok⟩

/-- Backend whose hash is the zero digest and whose curve test always fails:
the PDA search succeeds at the first bump. -/
def constHashBackend : HashBackend :=
  { sha256 := fun _ => List.replicate 32 0, isCurvePoint := fun _ => false }

/-- Backend whose curve test always succeeds: every candidate is rejected as
InvalidSeeds and the PDA search exhausts all 255 bumps. -/
def allCurveBackend : HashBackend :=
  { sha256 := fun _ => List.replicate 32 0, isCurvePoint := fun _ => true }

/-- The all-zero address. -/
def zeroPubkey : Pubkey := ⟨List.replicate 32 0⟩

/-- C4 witness: under constHashBackend the search on the empty seed list
succeeds immediately at bump 255 and the verification equation holds there. -/
theorem find_program_address_verifies_witness :
    Pubkey.create_program_address constHashBackend ([] ++ [[255]]) zeroPubkey =
        Except.ok zeroPubkey ∧
      Pubkey.is_on_curve constHashBackend zeroPubkey = false :=
  find_program_address_verifies constHashBackend [] zeroPubkey zeroPubkey 255
    (by decide) (by simp) (by rfl)

/-- C5: create_program_address fails with MaxSeedLengthExceeded whenever more
than 16 seeds are supplied or any seed is longer than 32 bytes, and the result
is the same for every hash backend, so no hash is ever computed on the failing
path. -/
theorem create_program_address_seed_limits (B B' : HashBackend)
    (seeds : List (List Nat)) (pid : Pubkey)
    (h : seeds.length > 16 ∨ ∃ s ∈ seeds, s.length > 32) :
    Pubkey.create_program_address B seeds pid =
        Except.error PubkeyError.MaxSeedLengthExceeded ∧
      Pubkey.create_program_address B' seeds pid =
        Pubkey.create_program_address B seeds pid := by
  by_cases hlen : seeds.length > 16
  · constructor <;>
      simp [Pubkey.create_program_address, MAX_SEEDS, hlen]
  · have hex : ∃ s ∈ seeds, s.length > 32 := by
      rcases h with h | h
      · exact absurd h hlen
      · exact h
    have hany : seeds.any (fun seed => seed.length > MAX_SEED_LEN) = true := by
      rcases hex with ⟨s, hs, hsl⟩
      simp only [List.any_eq_true, decide_eq_true_eq]
      exact ⟨s, hs, by simpa [MAX_SEED_LEN] using hsl⟩
    constructor <;>
      simp [Pubkey.create_program_address, MAX_SEEDS, hlen, hany]

/-- Seventeen empty seeds. -/
def seventeenSeeds : List (List Nat) := List.replicate 17 []

/-- C5 witness: seventeen seeds always fail with MaxSeedLengthExceeded, for
two different backends. -/
theorem create_program_address_seed_limits_witness :
    Pubkey.create_program_address constHashBackend seventeenSeeds zeroPubkey =
        Except.error PubkeyError.MaxSeedLengthExceeded ∧
      Pubkey.create_program_address allCurveBackend seventeenSeeds zeroPubkey =
        Pubkey.create_program_address constHashBackend seventeenSeeds zeroPubkey :=
  create_program_address_seed_limits constHashBackend allCurveBackend
    seventeenSeeds zeroPubkey (Or.inl (by decide))

/-- C9: the bump search tries candidates in exactly the order 255, 254, ...,
1, never 0: a successful result carries a bump between 1 and 255 whose
candidate succeeds while all higher bumps fail with InvalidSeeds, and a None
result means either all candidates 1..255 fail with InvalidSeeds or the
search aborted at some bump on a non-InvalidSeeds error after all higher
bumps failed with InvalidSeeds. -/
theorem try_find_program_address_order (B : HashBackend) (seeds : List (List Nat))
    (pid : Pubkey) :
    (∀ addr bump, Pubkey.try_find_program_address B seeds pid = some (addr, bump) →
      1 ≤ bump ∧ bump ≤ 255 ∧
      Pubkey.create_program_address B (seeds ++ [[bump]]) pid = Except.ok addr ∧
      ∀ j, bump < j → j ≤ 255 →
        Pubkey.create_program_address B (seeds ++ [[j]]) pid =
          Except.error PubkeyError.InvalidSeeds) ∧
    (Pubkey.try_find_program_address B seeds pid = none →
      (∀ j, 1 ≤ j → j ≤ 255 →
        Pubkey.create_program_address B (seeds ++ [[j]]) pid =
          Except.error PubkeyError.InvalidSeeds) ∨
      (∃ b e, 1 ≤ b ∧ b ≤ 255 ∧ e ≠ PubkeyError.InvalidSeeds ∧
        Pubkey.create_program_address B (seeds ++ [[b]]) pid = Except.error e ∧
        ∀ j, b < j → j ≤ 255 →
          Pubkey.create_program_address B (seeds ++ [[j]]) pid =
            Except.error PubkeyError.InvalidSeeds)) :=
  ⟨fun addr bump h => try_find_loop_some_inv B seeds pid 255 addr bump h,
    fun h => try_find_loop_none_inv B seeds pid 255 h⟩

set_option maxRecDepth 4000

/-- C9 witness: both branches at concrete backends; under constHashBackend
the search returns (zeroPubkey, 255), under allCurveBackend it returns None
after exhausting every bump. -/
theorem try_find_program_address_order_witness :
    (1 ≤ 255 ∧ 255 ≤ 255 ∧
      Pubkey.create_program_address constHashBackend ([] ++ [[255]]) zeroPubkey =
        Except.ok zeroPubkey ∧
      ∀ j, 255 < j → j ≤ 255 →
        Pubkey.create_program_address constHashBackend ([] ++ [[j]]) zeroPubkey =
          Except.error PubkeyError.InvalidSeeds) ∧
    ((∀ j, 1 ≤ j → j ≤ 255 →
        Pubkey.create_program_address allCurveBackend ([] ++ [[j]]) zeroPubkey =
          Except.error PubkeyError.InvalidSeeds) ∨
      (∃ b e, 1 ≤ b ∧ b ≤ 255 ∧ e ≠ PubkeyError.InvalidSeeds ∧
        Pubkey.create_program_address allCurveBackend ([] ++ [[b]]) zeroPubkey =
          Except.error e ∧
        ∀ j, b < j → j ≤ 255 →
          Pubkey.create_program_address allCurveBackend ([] ++ [[j]]) zeroPubkey =
            Except.error PubkeyError.InvalidSeeds)) :=
  ⟨(try_find_program_address_order constHashBackend [] zeroPubkey).1
      zeroPubkey 255 (by rfl),
    (try_find_program_address_order allCurveBackend [] zeroPubkey).2 (by rfl)⟩

/-! Base58 text codec (spec section 4.4).  The encoder five8::encode_32 and
the strict decoder five8::decode_32 live in an external crate and are
specified only as a deterministic codec contract; they are modelled here by
the standard base58 algorithm the contract describes: each leading zero byte
becomes a leading 1 character and the remaining bytes are written in base 58,
most significant digit first; the strict decoder accepts exactly the strings
whose value reproduces 32 bytes. -/

/-- Maximum string length of a base58 encoded pubkey
(src/pubkey/src/lib.rs line 45). -/
def MAX_BASE58_LEN : Nat := 44

/-- The base58 alphabet: digits and letters without 0, O, I and l. -/
def B58_ALPHABET : List Char :=
  ['1', '2', '3', '4', '5', '6', '7', '8', '9',
   'A', 'B', 'C', 'D', 'E', 'F', 'G', 'H', 'J', 'K', 'L', 'M', 'N',
   'P', 'Q', 'R', 'S', 'T', 'U', 'V', 'W', 'X', 'Y', 'Z',
   'a', 'b', 'c', 'd', 'e', 'f', 'g', 'h', 'i', 'j', 'k', 'm', 'n',
   'o', 'p', 'q', 'r', 's', 't', 'u', 'v', 'w', 'x', 'y', 'z']

/-- Character of a base58 digit (digits are always below 58). -/
def digitChar (d : Nat) : Char := B58_ALPHABET.getD d '1'

/-- Base58 digit of a character, none for a character outside the alphabet. -/
def charValue (c : Char) : Option Nat := B58_ALPHABET.indexOf? c

/-- Big-endian byte-sequence value. -/
def byteValue (bs : List Nat) : Nat := Nat.ofDigits 256 bs.reverse

/-- Modelled from the spec: five8::encode_32, the base58 encoding of 32
bytes. -/
def b58encode_32 (bs : List Nat) : List Char :=
  List.replicate (bs.takeWhile (fun b => b == 0)).length '1' ++
    (Nat.digits 58 (byteValue bs)).reverse.map digitChar

/-- Decode errors of the five8 decoder, with the four size-related kinds
(TooLong, TooShort, LargestTermTooHigh, OutputTooLong) collapsed into one,
exactly as Pubkey::from_str collapses them (lib.rs lines 390-396). -/
inductive DecodeError where
  | InvalidChar
  | WrongLength
deriving DecidableEq, Repr

/-- Digits of a character string, none as soon as one character is outside
the alphabet. -/
def charValues : List Char → Option (List Nat)
  | [] => some []
  | c :: rest =>
    match charValue c, charValues rest with
    | some d, some ds => some (d :: ds)
    | _, _ => none

/-- Modelled from the spec: five8::decode_32, the strict base58 decode onto
exactly 32 bytes: reject any character outside the alphabet, read the string
value, and require the leading 1 characters plus the value bytes to fill
exactly 32 bytes. -/
def b58decode_32 (s : List Char) : Except DecodeError (List Nat) :=
  match charValues s with
  | none => Except.error DecodeError.InvalidChar
  | some ds =>
    let z := (s.takeWhile (fun c => c == '1')).length
    let n := ds.foldl (fun acc d => acc * 58 + d) 0
    let body := (Nat.digits 256 n).reverse
    if z + body.length = 32 then Except.ok (List.replicate z 0 ++ body)
    else Except.error DecodeError.WrongLength

/-- ParsePubkeyError (src/pubkey/src/lib.rs lines 328-331). -/
inductive ParsePubkeyError where
  | WrongSize
  | Invalid
deriving DecidableEq, Repr

/-- Pubkey::from_str (src/pubkey/src/lib.rs lines 384-398): oversize strings
are rejected as WrongSize before any decode; a decode failure maps
InvalidChar to Invalid and every size-related failure to WrongSize. -/
def Pubkey.from_str (s : List Char) : Except ParsePubkeyError Pubkey :=
  if s.length > MAX_BASE58_LEN then Except.error ParsePubkeyError.WrongSize
  else
    match b58decode_32 s with
    | Except.error DecodeError.InvalidChar => Except.error ParsePubkeyError.Invalid
    | Except.error DecodeError.WrongLength => Except.error ParsePubkeyError.WrongSize
    | Except.ok bytes => Except.ok ⟨bytes⟩

/-- The Display and Debug formatting write_as_base58 (src/pubkey/src/lib.rs
lines 983-989). -/
def write_as_base58 (p : Pubkey) : List Char := b58encode_32 p.bytes

theorem foldl_mul_add (b : Nat) (L : List Nat) (acc : Nat) :
    L.reverse.foldl (fun a d => a * b + d) acc =
      acc * b ^ L.length + Nat.ofDigits b L := by
  induction L generalizing acc with
  | nil => simp [Nat.ofDigits_nil]
  | cons d L ih =>
    simp only [List.reverse_cons, List.foldl_append, List.foldl_cons, List.foldl_nil,
      List.length_cons, Nat.ofDigits_cons, ih]
    ring

theorem foldl_replicate_zero (z : Nat) :
    (List.replicate z 0).foldl (fun acc d => acc * 58 + d) 0 = 0 := by
  induction z with
  | zero => rfl
  | succ n ih => simpa [List.replicate_succ] using ih

theorem ofDigits_replicate_zero (b z : Nat) :
    Nat.ofDigits b (List.replicate z 0) = 0 := by
  induction z with
  | zero => rfl
  | succ n ih => simp [List.replicate_succ, Nat.ofDigits_cons, ih]

theorem charValue_digitChar : ∀ d, d < 58 → charValue (digitChar d) = some d := by
  decide

theorem digitChar_ne_one : ∀ d, d < 58 → d ≠ 0 → digitChar d ≠ '1' := by
  decide

theorem charValues_append (s1 s2 : List Char) (d1 d2 : List Nat)
    (h1 : charValues s1 = some d1) (h2 : charValues s2 = some d2) :
    charValues (s1 ++ s2) = some (d1 ++ d2) := by
  induction s1 generalizing d1 with
  | nil =>
    cases h1
    simpa using h2
  | cons c rest ih =>
    cases hc : charValue c with
    | none => rw [charValues, hc] at h1; cases h1
    | some d =>
      cases hrest : charValues rest with
      | none => rw [charValues, hc, hrest] at h1; cases h1
      | some ds =>
        rw [charValues, hc, hrest] at h1
        cases h1
        rw [List.cons_append, charValues, hc, ih ds hrest]
        rfl

theorem charValues_replicate_one (z : Nat) :
    charValues (List.replicate z '1') = some (List.replicate z 0) := by
  induction z with
  | zero => rfl
  | succ n ih =>
    rw [List.replicate_succ, List.replicate_succ, charValues,
      show charValue '1' = some 0 from rfl, ih]

theorem charValues_map_digitChar (ds : List Nat) (h : ∀ d ∈ ds, d < 58) :
    charValues (ds.map digitChar) = some ds := by
  induction ds with
  | nil => rfl
  | cons d rest ih =>
    have hd := h d (by simp)
    have hrest := ih (fun x hx => h x (by simp [hx]))
    rw [List.map_cons, charValues, charValue_digitChar d hd, hrest]

theorem takeWhile_replicate_one_append (z : Nat) (rest : List Char)
    (h : rest = [] ∨ ∃ c t, rest = c :: t ∧ c ≠ '1') :
    (List.replicate z '1' ++ rest).takeWhile (fun c => c == '1') =
      List.replicate z '1' := by
  induction z with
  | zero =>
    simp only [List.replicate_zero, List.nil_append]
    rcases h with rfl | ⟨c, t, rfl, hc⟩
    · rfl
    · rw [List.takeWhile_cons_of_neg]
      simpa using hc
  | succ n ih =>
    rw [List.replicate_succ, List.cons_append, List.takeWhile_cons_of_pos (by simp),
      ih]

theorem pow_256_le_pow_58 (z : Nat) (hz : z ≤ 32) :
    256 ^ (32 - z) ≤ 58 ^ (44 - z) := by
  have hpos : 0 < 58 ^ z := Nat.pos_pow_of_pos z (by norm_num)
  have hstep : 256 ^ (32 - z) * 58 ^ z ≤ 58 ^ (44 - z) * 58 ^ z := by
    calc 256 ^ (32 - z) * 58 ^ z
        ≤ 256 ^ (32 - z) * 256 ^ z :=
          Nat.mul_le_mul_left _ (Nat.pow_le_pow_left (by norm_num) _)
      _ = 256 ^ 32 := by rw [← pow_add]; congr 1; omega
      _ ≤ 58 ^ 44 := by norm_num
      _ = 58 ^ (44 - z) * 58 ^ z := by rw [← pow_add]; congr 1; omega
  exact Nat.le_of_mul_le_mul_right hstep hpos

theorem b58_round_trip (bs : List Nat) (hlen : bs.length = 32)
    (hb : ∀ b ∈ bs, b < 256) :
    b58decode_32 (b58encode_32 bs) = Except.ok bs ∧
      (b58encode_32 bs).length ≤ 44 := by
  obtain ⟨z, hz⟩ : ∃ z, (bs.takeWhile (fun b => b == 0)).length = z := ⟨_, rfl⟩
  obtain ⟨tail, htail⟩ : ∃ t, bs.dropWhile (fun b => b == 0) = t := ⟨_, rfl⟩
  have hsplit : List.replicate z 0 ++ tail = bs := by
    have hall : ∀ x ∈ bs.takeWhile (fun b => b == 0), x = 0 := fun x hx => by
      simpa using List.mem_takeWhile_imp hx
    have hrep : bs.takeWhile (fun b => b == 0) = List.replicate z 0 := by
      rw [← hz]
      exact List.eq_replicate_of_mem hall
    rw [← hrep, ← htail]
    exact List.takeWhile_append_dropWhile _ _
  have hzlen : z + tail.length = 32 := by
    have hlen2 := congrArg List.length hsplit
    simp only [List.length_append, List.length_replicate] at hlen2
    omega
  have hntail : byteValue bs = Nat.ofDigits 256 tail.reverse := by
    rw [byteValue, ← hsplit, List.reverse_append, List.reverse_replicate,
      Nat.ofDigits_append, ofDigits_replicate_zero, Nat.mul_zero, Nat.add_zero]
  have htb : ∀ x ∈ tail.reverse, x < 256 := by
    intro x hx
    refine hb x ?_
    have hx2 : x ∈ tail := List.mem_reverse.mp hx
    rw [← hsplit]
    exact List.mem_append.mpr (Or.inr hx2)
  by_cases htn : tail = []
  · subst htn
    have hz32 : z = 32 := by simpa using hzlen
    have hbs : bs = List.replicate 32 0 := by
      rw [← hsplit, hz32]
      simp
    rw [hbs]
    have hbv : byteValue (List.replicate 32 0) = 0 := by
      rw [byteValue, List.reverse_replicate, ofDigits_replicate_zero]
    have henc0 : b58encode_32 (List.replicate 32 0) = List.replicate 32 '1' := by
      rw [b58encode_32, hbv, Nat.digits_zero]
      decide
    constructor
    · unfold b58decode_32
      rw [henc0, charValues_replicate_one]
      dsimp only
      rw [foldl_replicate_zero, Nat.digits_zero]
      rfl
    · rw [henc0]
      decide
  · obtain ⟨t0, ts, htcons⟩ : ∃ t0 ts, tail = t0 :: ts := by
      cases tail with
      | nil => exact absurd rfl htn
      | cons a l => exact ⟨a, l, rfl⟩
    have hne : bs.dropWhile (fun b => b == 0) ≠ [] := by
      rw [htail]
      exact htn
    have ht0 : t0 ≠ 0 := by
      have hhead := List.head_dropWhile_not (fun b => b == 0) bs hne
      simp only [htail, htcons, List.head_cons] at hhead
      simpa using hhead
    have hd256 : Nat.digits 256 (byteValue bs) = tail.reverse := by
      rw [hntail]
      refine Nat.digits_ofDigits 256 (by norm_num) tail.reverse htb ?_
      intro hne2
      simp only [htcons, List.reverse_cons, List.getLast_append]
      exact ht0
    have hnne : byteValue bs ≠ 0 := by
      intro h0
      rw [h0] at hd256
      rw [htcons, List.reverse_cons] at hd256
      simpa using congrArg List.length hd256
    have henc : b58encode_32 bs =
        List.replicate z '1' ++
          (Nat.digits 58 (byteValue bs)).reverse.map digitChar := by
      rw [b58encode_32, hz]
    have hdig58 : ∀ d ∈ (Nat.digits 58 (byteValue bs)).reverse, d < 58 := fun d hd =>
      Nat.digits_lt_base (by norm_num) (List.mem_reverse.mp hd)
    have hne58 : Nat.digits 58 (byteValue bs) ≠ [] :=
      Nat.digits_ne_nil_iff_ne_zero.mpr hnne
    obtain ⟨d0, ds, hds⟩ :
        ∃ d0 ds, (Nat.digits 58 (byteValue bs)).reverse = d0 :: ds := by
      cases hrev : (Nat.digits 58 (byteValue bs)).reverse with
      | nil =>
        rw [List.reverse_eq_nil_iff] at hrev
        exact absurd hrev hne58
      | cons a l => exact ⟨a, l, rfl⟩
    have hdigits : Nat.digits 58 (byteValue bs) = ds.reverse ++ [d0] := by
      have h2 := congrArg List.reverse hds
      simpa using h2
    have hd0 : d0 ≠ 0 := by
      have hlast := Nat.getLast_digit_ne_zero 58 hnne
      simp only [hdigits, List.getLast_append] at hlast
      exact hlast
    have hd0lt : d0 < 58 := hdig58 d0 (by rw [hds]; simp)
    have hcv : charValues (b58encode_32 bs) =
        some (List.replicate z 0 ++ (Nat.digits 58 (byteValue bs)).reverse) := by
      rw [henc]
      exact charValues_append _ _ _ _ (charValues_replicate_one z)
        (charValues_map_digitChar _ hdig58)
    have htw0 := takeWhile_replicate_one_append z
      (digitChar d0 :: ds.map digitChar)
      (Or.inr ⟨digitChar d0, ds.map digitChar, rfl, digitChar_ne_one d0 hd0lt hd0⟩)
    have htw : ((b58encode_32 bs).takeWhile (fun c => c == '1')).length = z := by
      rw [henc, hds, List.map_cons, htw0, List.length_replicate]
    have hfold : (List.replicate z 0 ++
        (Nat.digits 58 (byteValue bs)).reverse).foldl
          (fun acc d => acc * 58 + d) 0 = byteValue bs := by
      rw [List.foldl_append, foldl_replicate_zero, foldl_mul_add,
        Nat.ofDigits_digits]
      simp
    constructor
    · unfold b58decode_32
      rw [hcv]
      dsimp only
      rw [htw, hfold, hd256, List.reverse_reverse]
      rw [if_pos hzlen]
      rw [hsplit]
    · rw [henc, List.length_append, List.length_replicate, List.length_map,
        List.length_reverse]
      have hzle : z ≤ 32 := by omega
      have hnlt : byteValue bs < 256 ^ (32 - z) := by
        have h1 : byteValue bs < 256 ^ (Nat.digits 256 (byteValue bs)).length :=
          Nat.lt_base_pow_length_digits (by norm_num)
        rw [hd256, List.length_reverse] at h1
        have heq : tail.length = 32 - z := by omega
        rw [heq] at h1
        exact h1
      have hn58 : byteValue bs < 58 ^ (44 - z) :=
        lt_of_lt_of_le hnlt (pow_256_le_pow_58 z hzle)
      have hloglen : (Nat.digits 58 (byteValue bs)).length =
          Nat.log 58 (byteValue bs) + 1 :=
        Nat.digits_len 58 (byteValue bs) (by norm_num) hnne
      have hlog : Nat.log 58 (byteValue bs) < 44 - z :=
        Nat.log_lt_of_lt_pow hnne hn58
      omega

/-- C7: parsing the base58 formatting of any 32-byte address returns exactly
that address, and parsing any string longer than 44 characters fails with
WrongSize (never Invalid): the length gate rejects it before any decode is
attempted, so the result does not depend on the characters at all. -/
theorem from_str_round_trip (a : Pubkey)
    (hlen : a.bytes.length = 32) (hb : ∀ b ∈ a.bytes, b < 256) :
    Pubkey.from_str (write_as_base58 a) = Except.ok a ∧
    ∀ s : List Char, s.length > 44 →
      Pubkey.from_str s = Except.error ParsePubkeyError.WrongSize := by
  obtain ⟨hdec, hle⟩ := b58_round_trip a.bytes hlen hb
  constructor
  · rw [write_as_base58]
    unfold Pubkey.from_str
    rw [if_neg (by simp only [MAX_BASE58_LEN, gt_iff_lt, not_lt]; exact hle), hdec]
  · intro s hs
    unfold Pubkey.from_str
    rw [if_pos (by simpa [MAX_BASE58_LEN] using hs)]

/-- C7 witness: the round trip at the all-zero address, and WrongSize at a
45-character string made of a character that is not even in the alphabet. -/
theorem from_str_round_trip_witness :
    Pubkey.from_str (write_as_base58 zeroPubkey) = Except.ok zeroPubkey ∧
      Pubkey.from_str (List.replicate 45 'I') =
        Except.error ParsePubkeyError.WrongSize :=
  ⟨(from_str_round_trip zeroPubkey (by decide) (by decide)).1,
    (from_str_round_trip zeroPubkey (by decide) (by decide)).2
      (List.replicate 45 'I') (by decide)⟩

end Solana
